import Mathlib

/-!
Verification of the byte-pair-encoding tokenizer in `src/basic.c`.

The C code is shallowly embedded: token ids are `Int` (C `int`), byte strings
are `List Nat` (values 0..255), the pair-count "dictionary" is an association
list in insertion order (mirroring the parallel `pairs[]` / `counts[]` arrays),
and the training loop is a fuel recursion whose fuel is the number of loop
iterations `num_merges = vocab_size - INITIAL_VOCAB_SIZE` (clamped at 0, as the
C `for` loop does for a negative bound).  The out-of-bounds read
`stats.pairs[0]` that the C code performs when the pair table is empty is
modelled by returning `none`.
-/

set_option maxRecDepth 8000

namespace MinBpe

/-- `struct Pair` of src/basic.c: an ordered pair of token ids. -/
structure Pair where
  first : Int
  second : Int
deriving DecidableEq

/-- `PairCounts` of src/basic.c: the parallel arrays `pairs[]`/`counts[]`,
modelled as an association list kept in insertion order. -/
abbrev PairCounts := List (Pair × Int)

/-- `add_pair_count`: linear scan for the pair; increment the first matching
entry, otherwise append `(pair, c)` at the end. -/
def add_pair_count : PairCounts → Pair → Int → PairCounts
  | [], pair, c => [(pair, c)]
  | (q, n) :: rest, pair, c =>
      if q = pair then (q, n + c) :: rest
      else (q, n) :: add_pair_count rest pair c

/-- The adjacent pairs `(ids[i], ids[i+1])`, `0 <= i < length - 1`, visited by
`get_stats`'s loop, in scan order. -/
def pairsOf : List Int → List Pair
  | x :: y :: rest => ⟨x, y⟩ :: pairsOf (y :: rest)
  | _ => []

/-- `get_stats`: fold `add_pair_count … 1` over the adjacent pairs in scan
order, starting from the empty table. -/
def get_stats (ids : List Int) : PairCounts :=
  (pairsOf ids).foldl (fun acc p => add_pair_count acc p 1) []

/-- `merge`: left-to-right scan; on a match of `pair` emit `idx` and skip two
elements, otherwise emit the current element and advance one. -/
def merge : List Int → Pair → Int → List Int
  | x :: y :: rest, pair, idx =>
      if x = pair.first ∧ y = pair.second then idx :: merge rest pair idx
      else x :: merge (y :: rest) pair idx
  | l, _, _ => l

/-- `#define INITIAL_VOCAB_SIZE 500` (src/basic.c line 5). -/
def INITIAL_VOCAB_SIZE : Nat := 500

/-- `struct BasicTokenizer`: the vocabulary (each entry is the byte content the
C code wrote before the terminating NUL) and the `merges` table, which reuses
`PairCounts` with the count field holding the new id. -/
structure BasicTokenizer where
  vocab : List (List Nat)
  merges : PairCounts
deriving DecidableEq

/-- The initial vocabulary of `create_basic_tokenizer`: entry `i` holds the
single byte `(unsigned char) i = i % 256`. -/
def init_vocab : List (List Nat) :=
  (List.range INITIAL_VOCAB_SIZE).map (fun i => [i % 256])

/-- `create_basic_tokenizer`: 500 single-byte entries and an empty merge
table. -/
def create_basic_tokenizer : BasicTokenizer :=
  ⟨init_vocab, []⟩

/-- The argmax scan of `train` (`max_idx` loop): strictly-greater comparison,
so the first entry attaining the maximum count wins. -/
def pick : Pair × Int → PairCounts → Pair × Int
  | best, [] => best
  | best, e :: rest => pick (if e.2 > best.2 then e else best) rest

/-- The training loop body (`for (i = 0; i < num_merges; i++)` of `train`).
`fuel` is the number of remaining iterations, `i` the current iteration index.
When the pair table is empty the C code reads `stats.pairs[0]` out of bounds
(a NULL dereference); that stuck state is `none`. -/
def trainGo : Nat → Nat → List Int → BasicTokenizer → Option BasicTokenizer
  | 0, _, _, t => some t
  | fuel + 1, i, ids, t =>
      match get_stats ids with
      | [] => none
      | e :: rest =>
          let maxPair := (pick e rest).1
          let newIdx : Int := (INITIAL_VOCAB_SIZE : Int) + i
          trainGo fuel (i + 1) (merge ids maxPair newIdx)
            ⟨t.vocab ++ [[(maxPair.first % 256).toNat, (maxPair.second % 256).toNat]],
             add_pair_count t.merges maxPair newIdx⟩

/-- `train`: convert the text bytes to ids and run `num_merges =
vocab_size - INITIAL_VOCAB_SIZE` iterations (none when the difference is
non-positive). -/
def train (t : BasicTokenizer) (text : List Nat) (vocab_size : Int) :
    Option BasicTokenizer :=
  trainGo (vocab_size - (INITIAL_VOCAB_SIZE : Int)).toNat 0
    (text.map Int.ofNat) t

/-- The bytes `printf("%s", …)` prints from a stored entry: everything up to
the first NUL byte. -/
def cstr (s : List Nat) : List Nat :=
  s.takeWhile (fun b => b ≠ 0)

/-- `decode`: for each id, if it is negative or at least `vocab_size`, report
it (second component) and continue; otherwise print the entry's C string
(first component). -/
def decode (t : BasicTokenizer) (ids : List Int) : List Nat × List Int :=
  match ids with
  | [] => ([], [])
  | id :: rest =>
      let r := decode t rest
      if id < 0 ∨ (t.vocab.length : Int) ≤ id then (r.1, id :: r.2)
      else (cstr (t.vocab.getD id.toNat []) ++ r.1, r.2)

/-- `encode`: copies the byte values of the text into the id array; the
tokenizer argument is unused. -/
def encode (_tokenizer : BasicTokenizer) (text : List Nat) : List Int :=
  text.map Int.ofNat

/-- First-occurrence order of the elements of a list: the fixed scan order in
which `get_stats` first inserts each distinct pair. -/
def firstOccur (l : List Pair) : List Pair :=
  l.foldl (fun acc p => if p ∈ acc then acc else acc ++ [p]) []

/-- The count associated with a pair in a `PairCounts` table (0 when the pair
has no entry): the value the linear scan of the C code finds. -/
def getCount : PairCounts → Pair → Int
  | [], _ => 0
  | (q, n) :: rest, p => if q = p then n else getCount rest p

/-- C6: the Merger scans left to right, emitting the new id and advancing by
two exactly on a match and emitting the current element otherwise; in
particular `[a, a, a]` with pair `(a, a)` merges to `[new, a]`. -/
theorem merge_scan_spec (x y : Int) (rest : List Int) (p : Pair) (idx : Int)
    (a n : Int) :
    merge (x :: y :: rest) p idx =
      (if x = p.first ∧ y = p.second then idx :: merge rest p idx
       else x :: merge (y :: rest) p idx) ∧
    merge [] p idx = [] ∧
    merge [x] p idx = [x] ∧
    merge [a, a, a] ⟨a, a⟩ n = [n, a] := by
  refine ⟨rfl, rfl, rfl, ?_⟩
  simp [merge]

/-- C10: `encode` ignores the tokenizer entirely: any two tokenizers yield the
same output, namely the text's byte values, with the text's length. -/
theorem encode_independent_of_tokenizer (t₁ t₂ : BasicTokenizer)
    (text : List Nat) :
    encode t₁ text = encode t₂ text ∧
    encode t₁ text = text.map Int.ofNat ∧
    (encode t₁ text).length = text.length := by
  refine ⟨rfl, rfl, ?_⟩
  simp only [encode, List.length_map]

/-- C4: training a 1-byte text with one merge requested reaches an empty pair
table; the C code then reads `stats.pairs[0]` out of bounds (modelled as the
stuck state `none`) instead of stopping with `InsufficientData`. -/
theorem train_empty_stats_stuck :
    train create_basic_tokenizer [97] 501 = none := by
  rfl

/-- C5: with `target_vocab_size = 257` the code runs `257 - 500 < 0`, hence
zero, merge iterations on "aaaa": no rule is learned, `encode` returns the raw
byte values, and decoding `[256, 256]` prints nothing (entry 256 is the byte
`0`, an empty C string) — not "aaaa". -/
theorem scenario_a_fails :
    train create_basic_tokenizer [97, 97, 97, 97] 257 =
      some create_basic_tokenizer ∧
    create_basic_tokenizer.merges = [] ∧
    encode create_basic_tokenizer [97, 97, 97, 97] = [97, 97, 97, 97] ∧
    (decode create_basic_tokenizer [256, 256]).1 = [] ∧
    (decode create_basic_tokenizer [256, 256]).1 ≠ [97, 97, 97, 97] := by
  refine ⟨rfl, rfl, rfl, ?_, ?_⟩ <;> decide

/-- C1: after training "aaaa" to one merge rule, the rule's pair `(97, 97)`
occurs adjacently in the base-id sequence of "aaaa", yet `encode` returns
exactly the byte values `[97, 97, 97, 97]`: no learned rule is ever applied. -/
theorem encode_applies_no_merge_rules :
    train create_basic_tokenizer [97, 97, 97, 97] 501 =
      some ⟨init_vocab ++ [[97, 97]], [(⟨97, 97⟩, 500)]⟩ ∧
    ((⟨97, 97⟩ : Pair), (500 : Int)) ∈
      (BasicTokenizer.mk (init_vocab ++ [[97, 97]]) [(⟨97, 97⟩, 500)]).merges ∧
    (⟨97, 97⟩ : Pair) ∈ pairsOf (([97, 97, 97, 97] : List Nat).map Int.ofNat) ∧
    encode ⟨init_vocab ++ [[97, 97]], [(⟨97, 97⟩, 500)]⟩ [97, 97, 97, 97] =
      [97, 97, 97, 97] := by
  refine ⟨rfl, ?_, ?_, rfl⟩ <;> decide

/-- C3: training eight "a" bytes with two merges learns `(97,97) → 500` and
then `(500,500) → 501`; the vocabulary entry stored for 501 is the two
truncated bytes `[244, 244]` (`500 % 256 = 244`), not the concatenation
`[97, 97] ++ [97, 97]` of the entries of its components. -/
theorem merged_vocab_entry_not_concatenation :
    train create_basic_tokenizer (List.replicate 8 97) 502 =
      some ⟨init_vocab ++ [[97, 97], [244, 244]],
            [(⟨97, 97⟩, 500), (⟨500, 500⟩, 501)]⟩ ∧
    (init_vocab ++ [[97, 97], [244, 244]]).getD 500 [] = [97, 97] ∧
    (init_vocab ++ [[97, 97], [244, 244]]).getD 501 [] = [244, 244] ∧
    (init_vocab ++ [[97, 97], [244, 244]]).getD 501 [] ≠
      (init_vocab ++ [[97, 97], [244, 244]]).getD 500 [] ++
        (init_vocab ++ [[97, 97], [244, 244]]).getD 500 [] := by
  refine ⟨rfl, ?_, ?_, ?_⟩ <;> decide

/-! ### The pair-count table: keys in first-occurrence order, counts are
occurrence counts -/

lemma add_pair_count_map_fst (acc : PairCounts) (p : Pair) (c : Int) :
    (add_pair_count acc p c).map Prod.fst =
      if p ∈ acc.map Prod.fst then acc.map Prod.fst
      else acc.map Prod.fst ++ [p] := by
  induction acc with
  | nil => simp [add_pair_count]
  | cons e rest ih =>
    obtain ⟨q, n⟩ := e
    by_cases hqp : q = p
    · subst hqp
      simp [add_pair_count]
    · have hpq : ¬p = q := fun h => hqp h.symm
      simp only [add_pair_count, if_neg hqp, List.map_cons, ih]
      by_cases hp : p ∈ rest.map Prod.fst
      · simp [hp, hpq]
      · simp [hp, hpq]

lemma getCount_add_pair_count (acc : PairCounts) (p q : Pair) (c : Int) :
    getCount (add_pair_count acc p c) q =
      getCount acc q + (if q = p then c else 0) := by
  induction acc with
  | nil =>
    by_cases h : p = q
    · subst h; simp [add_pair_count, getCount]
    · have h' : ¬q = p := fun h' => h h'.symm
      simp [add_pair_count, getCount, h, h']
  | cons e rest ih =>
    obtain ⟨q', n⟩ := e
    by_cases h1 : q' = p
    · subst h1
      by_cases h2 : q' = q
      · subst h2; simp [add_pair_count, getCount]
      · have h2' : ¬q = q' := fun h' => h2 h'.symm
        simp [add_pair_count, getCount, h2, h2']
    · by_cases h2 : q' = q
      · subst h2
        have h1' : ¬q' = p := h1
        simp [add_pair_count, getCount, h1']
      · simp [add_pair_count, getCount, h1, h2, ih]

lemma get_stats_foldl_map_fst : ∀ (l : List Pair) (acc : PairCounts),
    (l.foldl (fun a p => add_pair_count a p 1) acc).map Prod.fst =
      l.foldl (fun a p => if p ∈ a then a else a ++ [p]) (acc.map Prod.fst) := by
  intro l
  induction l with
  | nil => intro acc; rfl
  | cons p l ih =>
    intro acc
    simp only [List.foldl_cons]
    rw [ih, add_pair_count_map_fst]

/-- The scan order in which `get_stats` lays out distinct pairs is exactly
first-occurrence order over the adjacent pairs of the sequence. -/
lemma get_stats_map_fst (ids : List Int) :
    (get_stats ids).map Prod.fst = firstOccur (pairsOf ids) := by
  unfold get_stats firstOccur
  simpa using get_stats_foldl_map_fst (pairsOf ids) []

lemma getCount_foldl : ∀ (l : List Pair) (acc : PairCounts) (q : Pair),
    getCount (l.foldl (fun a p => add_pair_count a p 1) acc) q =
      getCount acc q + (l.count q : Int) := by
  intro l
  induction l with
  | nil => intro acc q; simp
  | cons p l ih =>
    intro acc q
    simp only [List.foldl_cons]
    rw [ih, getCount_add_pair_count]
    by_cases h : q = p
    · subst h
      simp [List.count_cons]
      ring
    · have hpq : ¬p = q := fun h' => h h'.symm
      simp [List.count_cons, h, hpq]

lemma getCount_get_stats (ids : List Int) (q : Pair) :
    getCount (get_stats ids) q = ((pairsOf ids).count q : Int) := by
  unfold get_stats
  simpa [getCount] using getCount_foldl (pairsOf ids) [] q

lemma firstOccur_foldl_nodup : ∀ (l : List Pair) (acc : List Pair),
    acc.Nodup →
    (l.foldl (fun a p => if p ∈ a then a else a ++ [p]) acc).Nodup := by
  intro l
  induction l with
  | nil => intro acc h; exact h
  | cons p l ih =>
    intro acc h
    simp only [List.foldl_cons]
    apply ih
    by_cases hp : p ∈ acc
    · simpa [hp] using h
    · rw [if_neg hp, List.nodup_append]
      refine ⟨h, List.nodup_singleton p, ?_⟩
      intro x hx hx'
      rw [List.mem_singleton] at hx'
      subst hx'
      exact hp hx

lemma get_stats_keys_nodup (ids : List Int) :
    ((get_stats ids).map Prod.fst).Nodup := by
  rw [get_stats_map_fst]
  exact firstOccur_foldl_nodup (pairsOf ids) [] List.nodup_nil

lemma snd_eq_getCount : ∀ (acc : PairCounts),
    ((acc.map Prod.fst).Nodup) → ∀ e ∈ acc, e.2 = getCount acc e.1 := by
  intro acc
  induction acc with
  | nil => intro _ e he; cases he
  | cons f rest ih =>
    obtain ⟨q, n⟩ := f
    intro h e he
    simp only [List.map_cons, List.nodup_cons] at h
    rcases List.mem_cons.mp he with rfl | he'
    · simp [getCount]
    · have hne : ¬q = e.1 := by
        intro hq
        exact h.1 (hq ▸ List.mem_map_of_mem Prod.fst he')
      simp only [getCount, if_neg hne]
      exact ih h.2 e he'

lemma mem_firstOccur_foldl : ∀ (l : List Pair) (acc : List Pair) (x : Pair),
    x ∈ l.foldl (fun a p => if p ∈ a then a else a ++ [p]) acc →
    x ∈ acc ∨ x ∈ l := by
  intro l
  induction l with
  | nil => intro acc x h; exact Or.inl h
  | cons p l ih =>
    intro acc x h
    simp only [List.foldl_cons] at h
    rcases ih _ x h with h' | h'
    · by_cases hp : p ∈ acc
      · rw [if_pos hp] at h'; exact Or.inl h'
      · rw [if_neg hp] at h'
        rcases List.mem_append.mp h' with h'' | h''
        · exact Or.inl h''
        · rw [List.mem_singleton] at h''
          subst h''
          exact Or.inr (List.mem_cons_self x l)
    · exact Or.inr (List.mem_cons_of_mem p h')

/-- The `max_idx` scan of `train` returns a table entry of maximum count, and
every entry laid out before it in the table has a strictly smaller count (the
strictly-greater comparison keeps the earliest maximum). -/
lemma pick_first_max : ∀ (rest : PairCounts) (best : Pair × Int),
    ∃ l₁ l₂, best :: rest = l₁ ++ pick best rest :: l₂ ∧
      (∀ e ∈ l₁, e.2 < (pick best rest).2) ∧
      (∀ e ∈ best :: rest, e.2 ≤ (pick best rest).2) := by
  intro rest
  induction rest with
  | nil =>
    intro best
    refine ⟨[], [], rfl, by simp, ?_⟩
    intro e he
    rw [List.mem_singleton] at he
    subst he
    exact le_refl _
  | cons f rest ih =>
    intro best
    have hpick : pick best (f :: rest) =
        pick (if f.2 > best.2 then f else best) rest := rfl
    by_cases h : f.2 > best.2
    · obtain ⟨l₁, l₂, heq, hlt, hle⟩ := ih f
      rw [hpick, if_pos h]
      refine ⟨best :: l₁, l₂, ?_, ?_, ?_⟩
      · rw [List.cons_append, ← heq]
      · intro e he
        rcases List.mem_cons.mp he with rfl | he'
        · exact lt_of_lt_of_le h (hle f (List.mem_cons_self f rest))
        · exact hlt e he'
      · intro e he
        rcases List.mem_cons.mp he with rfl | he'
        · exact le_of_lt (lt_of_lt_of_le h (hle f (List.mem_cons_self f rest)))
        · exact hle e he'
    · have hf : f.2 ≤ best.2 := not_lt.mp h
      obtain ⟨l₁, l₂, heq, hlt, hle⟩ := ih best
      rw [hpick, if_neg h]
      cases l₁ with
      | nil =>
        rw [List.nil_append] at heq
        have h1 : best = pick best rest := (List.cons.injEq _ _ _ _ ▸ heq).1
        refine ⟨[], f :: rest, ?_, by simp, ?_⟩
        · rw [List.nil_append, ← h1]
        · intro e he
          rcases List.mem_cons.mp he with rfl | he'
          · exact h1 ▸ le_refl e.2
          · rcases List.mem_cons.mp he' with rfl | he''
            · exact le_trans hf (hle best (List.mem_cons_self best rest))
            · exact hle e (List.mem_cons_of_mem best he'')
      | cons b l₁' =>
        rw [List.cons_append] at heq
        have hb : best = b := (List.cons.injEq _ _ _ _ ▸ heq).1
        have hrest : rest = l₁' ++ pick best rest :: l₂ :=
          (List.cons.injEq _ _ _ _ ▸ heq).2
        have hbest : best.2 < (pick best rest).2 := by
          have := hlt b (List.mem_cons_self b l₁')
          rw [← hb] at this
          exact this
        refine ⟨best :: f :: l₁', l₂, ?_, ?_, ?_⟩
        · rw [List.cons_append, List.cons_append, ← hrest]
        · intro e he
          rcases List.mem_cons.mp he with rfl | he'
          · exact hbest
          · rcases List.mem_cons.mp he' with rfl | he''
            · exact lt_of_le_of_lt hf hbest
            · exact hlt e (List.mem_cons_of_mem b he'')
        · intro e he
          rcases List.mem_cons.mp he with rfl | he'
          · exact hle _ (List.mem_cons_self _ _)
          · rcases List.mem_cons.mp he' with rfl | he''
            · exact le_trans hf (hle _ (List.mem_cons_self _ _))
            · exact hle e (List.mem_cons_of_mem _ he'')

/-- C7: at a training iteration whose frequency table is non-empty, the table
lists the distinct adjacent pairs in first-occurrence (scan) order, each with
its occurrence count; the selected entry has maximum count, and every entry
before it in that order has a strictly smaller count (ties go to the first
pair in scan order). -/
theorem train_selects_first_max_pair (ids : List Int) (e : Pair × Int)
    (rest : PairCounts) (h : get_stats ids = e :: rest) :
    (get_stats ids).map Prod.fst = firstOccur (pairsOf ids) ∧
    (∀ en ∈ get_stats ids, en.2 = ((pairsOf ids).count en.1 : Int)) ∧
    ∃ l₁ l₂, get_stats ids = l₁ ++ pick e rest :: l₂ ∧
      (∀ en ∈ l₁, en.2 < (pick e rest).2) ∧
      (∀ en ∈ get_stats ids, en.2 ≤ (pick e rest).2) := by
  refine ⟨get_stats_map_fst ids, ?_, ?_⟩
  · intro en hen
    rw [snd_eq_getCount (get_stats ids) (get_stats_keys_nodup ids) en hen]
    exact getCount_get_stats ids en.1
  · obtain ⟨l₁, l₂, heq, hlt, hle⟩ := pick_first_max rest e
    refine ⟨l₁, l₂, ?_, hlt, ?_⟩
    · rw [h]; exact heq
    · intro en hen
      rw [h] at hen
      exact hle en hen

/-- Witness for C7 on the sequence `[1, 2, 1, 2, 3]`, whose pair table is
`[((1,2), 2), ((2,1), 1), ((2,3), 1)]`. -/
theorem train_selects_first_max_pair_witness :
    (get_stats [1, 2, 1, 2, 3]).map Prod.fst =
      firstOccur (pairsOf [1, 2, 1, 2, 3]) ∧
    (∀ en ∈ get_stats [1, 2, 1, 2, 3],
      en.2 = ((pairsOf [1, 2, 1, 2, 3]).count en.1 : Int)) ∧
    ∃ l₁ l₂, get_stats [1, 2, 1, 2, 3] =
        l₁ ++ pick (⟨1, 2⟩, 2) [(⟨2, 1⟩, 1), (⟨2, 3⟩, 1)] :: l₂ ∧
      (∀ en ∈ l₁, en.2 < (pick (⟨1, 2⟩, 2) [(⟨2, 1⟩, 1), (⟨2, 3⟩, 1)]).2) ∧
      (∀ en ∈ get_stats [1, 2, 1, 2, 3],
        en.2 ≤ (pick (⟨1, 2⟩, 2) [(⟨2, 1⟩, 1), (⟨2, 3⟩, 1)]).2) :=
  train_selects_first_max_pair [1, 2, 1, 2, 3] (⟨1, 2⟩, 2)
    [(⟨2, 1⟩, 1), (⟨2, 3⟩, 1)] (by decide)

/-- C9: `decode` reports exactly the ids that are negative or at least the
vocabulary size, in order, and its output is the concatenation of the C
strings of the in-range ids' entries, with out-of-range ids skipped; entries
are only ever looked up at in-range indices. -/
theorem decode_out_of_range_spec (t : BasicTokenizer) (ids : List Int) :
    (decode t ids).2 =
      ids.filter (fun id => decide (id < 0 ∨ (t.vocab.length : Int) ≤ id)) ∧
    (decode t ids).1 =
      ((ids.filter (fun id => decide (0 ≤ id ∧ id < (t.vocab.length : Int)))).map
        (fun id => cstr (t.vocab.getD id.toNat []))).flatten := by
  induction ids with
  | nil => exact ⟨rfl, rfl⟩
  | cons id rest ih =>
    by_cases h : id < 0 ∨ (t.vocab.length : Int) ≤ id
    · have hd : decode t (id :: rest) =
          ((decode t rest).1, id :: (decode t rest).2) := by
        simp [decode, h]
      have hc : decide (id < 0 ∨ (t.vocab.length : Int) ≤ id) = true :=
        decide_eq_true h
      have hc2 : decide (0 ≤ id ∧ id < (t.vocab.length : Int)) = false := by
        apply decide_eq_false
        omega
      rw [hd]
      constructor
      · simp only [List.filter_cons, hc, if_pos trivial, ih.1]
      · simp only [List.filter_cons, hc2]
        simpa using ih.2
    · have hd : decode t (id :: rest) =
          (cstr (t.vocab.getD id.toNat []) ++ (decode t rest).1,
            (decode t rest).2) := by
        simp [decode, h]
      have hc : decide (id < 0 ∨ (t.vocab.length : Int) ≤ id) = false :=
        decide_eq_false h
      have hc2 : decide (0 ≤ id ∧ id < (t.vocab.length : Int)) = true := by
        apply decide_eq_true
        omega
      rw [hd]
      constructor
      · simp only [List.filter_cons, hc]
        simpa using ih.1
      · simp only [List.filter_cons, hc2, if_pos trivial, List.map_cons,
          List.flatten_cons, ih.2]

/-! ### Round trip -/

/-- Training only ever appends entries to the vocabulary. -/
lemma trainGo_vocab_extends : ∀ (fuel i : Nat) (ids : List Int)
    (t tok : BasicTokenizer), trainGo fuel i ids t = some tok →
    ∃ ex, tok.vocab = t.vocab ++ ex := by
  intro fuel
  induction fuel with
  | zero =>
    intro i ids t tok h
    simp only [trainGo, Option.some.injEq] at h
    subst h
    exact ⟨[], by simp⟩
  | succ fuel ih =>
    intro i ids t tok h
    cases hstats : get_stats ids with
    | nil =>
      simp only [trainGo, hstats] at h
      exact Option.noConfusion h
    | cons e rest =>
      simp only [trainGo, hstats] at h
      obtain ⟨ex, hex⟩ := ih _ _ _ _ h
      refine ⟨[[((pick e rest).1.first % 256).toNat,
        ((pick e rest).1.second % 256).toNat]] ++ ex, ?_⟩
      rw [hex]
      exact List.append_assoc _ _ _

/-- Decoding the byte ids of a NUL-free byte text through any tokenizer whose
vocabulary extends the initial one reproduces the text. -/
lemma decode_byte_ids (t : BasicTokenizer) (ex : List (List Nat))
    (hvocab : t.vocab = init_vocab ++ ex) :
    ∀ (text : List Nat), (∀ b ∈ text, 0 < b ∧ b < 256) →
    (decode t (text.map Int.ofNat)).1 = text := by
  intro text
  induction text with
  | nil => intro _; rfl
  | cons b text ih =>
    intro h
    have hb := h b (List.mem_cons_self b text)
    have hlen : (500 : Int) ≤ (t.vocab.length : Int) := by
      rw [hvocab]
      simp only [List.length_append, init_vocab, List.length_map,
        List.length_range, INITIAL_VOCAB_SIZE]
      push_cast
      omega
    have hofnat : Int.ofNat b = (b : Int) := rfl
    have hrange : ¬(Int.ofNat b < 0 ∨ (t.vocab.length : Int) ≤ Int.ofNat b) := by
      rw [hofnat]
      push_neg
      refine ⟨Int.natCast_nonneg b, ?_⟩
      have := hb.2
      omega
    have hd : decode t (Int.ofNat b :: text.map Int.ofNat) =
        (cstr (t.vocab.getD (Int.ofNat b).toNat []) ++
          (decode t (text.map Int.ofNat)).1,
         (decode t (text.map Int.ofNat)).2) := by
      simp only [decode, if_neg hrange]
    have hblt : b < init_vocab.length := by
      simp only [init_vocab, List.length_map, List.length_range,
        INITIAL_VOCAB_SIZE]
      omega
    have hbfull : b < (init_vocab ++ ex).length := by
      rw [List.length_append]
      omega
    have hentry : t.vocab.getD (Int.ofNat b).toNat [] = [b] := by
      rw [hvocab, show (Int.ofNat b).toNat = b from rfl,
        List.getD_eq_getElem (init_vocab ++ ex) [] hbfull,
        List.getElem_append_left hblt]
      simp only [init_vocab, List.getElem_map, List.getElem_range]
      rw [Nat.mod_eq_of_lt hb.2]
    have hcstr : cstr [b] = [b] := by
      have hb0 : b ≠ 0 := Nat.pos_iff_ne_zero.mp hb.1
      simp [cstr, hb0]
    rw [List.map_cons, hd, hentry, hcstr,
      ih (fun x hx => h x (List.mem_cons_of_mem b hx))]
    rfl

/-- C8: for a trained tokenizer and a NUL-free byte text, decoding the ids
produced by `encode` reproduces the text byte-exactly (trivially so, since
`encode` emits raw byte ids and every byte id decodes to its single byte). -/
theorem encode_decode_round_trip (trainText text : List Nat) (V : Int)
    (tok : BasicTokenizer)
    (htr : train create_basic_tokenizer trainText V = some tok)
    (htext : ∀ b ∈ text, 0 < b ∧ b < 256) :
    (decode tok (encode tok text)).1 = text := by
  obtain ⟨ex, hvocab⟩ := trainGo_vocab_extends _ _ _ _ _ htr
  exact decode_byte_ids tok ex hvocab text htext

/-- Witness for C8: the tokenizer trained with `target_vocab_size = 500`
(zero merges) round-trips the text "hi" (`[104, 105]`). -/
theorem encode_decode_round_trip_witness :
    (∀ b ∈ ([104, 105] : List Nat), 0 < b ∧ b < 256) ∧
    (decode create_basic_tokenizer
      (encode create_basic_tokenizer [104, 105])).1 = [104, 105] :=
  ⟨by decide,
   encode_decode_round_trip [] [104, 105] 500 create_basic_tokenizer rfl
     (by decide)⟩

/-! ### Merge rules never repeat, so the merge table grows by one entry per
iteration with consecutive new ids -/

lemma mem_merge (p : Pair) (idx : Int) : ∀ (l : List Int) (x : Int),
    x ∈ merge l p idx → x = idx ∨ x ∈ l
  | [], x, h => by simp [merge] at h
  | [a], x, h => Or.inr (by simpa [merge] using h)
  | a :: b :: rest, x, h => by
    by_cases hm : a = p.first ∧ b = p.second
    · simp only [merge, if_pos hm] at h
      rcases List.mem_cons.mp h with rfl | h'
      · exact Or.inl rfl
      · rcases mem_merge p idx rest x h' with h'' | h''
        · exact Or.inl h''
        · exact Or.inr (List.mem_cons_of_mem a (List.mem_cons_of_mem b h''))
    · simp only [merge, if_neg hm] at h
      rcases List.mem_cons.mp h with rfl | h'
      · exact Or.inr (List.mem_cons_self _ _)
      · rcases mem_merge p idx (b :: rest) x h' with h'' | h''
        · exact Or.inl h''
        · exact Or.inr (List.mem_cons_of_mem a h'')

lemma pairsOf_cons_subset (a : Int) (l : List Int) :
    ∀ q, q ∈ pairsOf l → q ∈ pairsOf (a :: l) := by
  intro q h
  cases l with
  | nil => simp [pairsOf] at h
  | cons b l' =>
    rw [show pairsOf (a :: b :: l') = ⟨a, b⟩ :: pairsOf (b :: l') from rfl]
    exact List.mem_cons_of_mem _ h

lemma mem_pairsOf : ∀ (l : List Int) (q : Pair),
    q ∈ pairsOf l → q.first ∈ l ∧ q.second ∈ l
  | [], q, h => by simp [pairsOf] at h
  | [a], q, h => by simp [pairsOf] at h
  | a :: b :: rest, q, h => by
    simp only [pairsOf] at h
    rcases List.mem_cons.mp h with rfl | h'
    · exact ⟨List.mem_cons_self _ _,
        List.mem_cons_of_mem _ (List.mem_cons_self _ _)⟩
    · obtain ⟨h1, h2⟩ := mem_pairsOf (b :: rest) q h'
      exact ⟨List.mem_cons_of_mem _ h1, List.mem_cons_of_mem _ h2⟩

/-- The first element of a merged non-empty sequence is either the new id or
the original head. -/
lemma merge_cons_shape (p : Pair) (idx a : Int) (l : List Int) :
    (∃ tl, merge (a :: l) p idx = idx :: tl) ∨
    (∃ tl, merge (a :: l) p idx = a :: tl) := by
  cases l with
  | nil => exact Or.inr ⟨[], rfl⟩
  | cons b rest =>
    by_cases hm : a = p.first ∧ b = p.second
    · exact Or.inl ⟨merge rest p idx, by simp only [merge, if_pos hm]⟩
    · exact Or.inr ⟨merge (b :: rest) p idx, by simp only [merge, if_neg hm]⟩

/-- Every adjacent pair of a merged sequence either involves the new id or was
already adjacent before the merge. -/
lemma pairsOf_merge (p : Pair) (idx : Int) : ∀ (l : List Int) (q : Pair),
    q ∈ pairsOf (merge l p idx) →
    q.first = idx ∨ q.second = idx ∨ q ∈ pairsOf l
  | [], q, h => by simp [merge, pairsOf] at h
  | [a], q, h => by simp [merge, pairsOf] at h
  | a :: b :: rest, q, h => by
    by_cases hm : a = p.first ∧ b = p.second
    · simp only [merge, if_pos hm] at h
      cases hmr : merge rest p idx with
      | nil => rw [hmr] at h; simp [pairsOf] at h
      | cons m tl =>
        rw [hmr] at h
        simp only [pairsOf] at h
        rcases List.mem_cons.mp h with rfl | h'
        · exact Or.inl rfl
        · rw [← hmr] at h'
          rcases pairsOf_merge p idx rest q h' with h'' | h'' | h''
          · exact Or.inl h''
          · exact Or.inr (Or.inl h'')
          · exact Or.inr (Or.inr
              (pairsOf_cons_subset a _ q (pairsOf_cons_subset b _ q h'')))
    · simp only [merge, if_neg hm] at h
      rcases merge_cons_shape p idx b rest with ⟨tl, htl⟩ | ⟨tl, htl⟩
      · rw [htl] at h
        simp only [pairsOf] at h
        rcases List.mem_cons.mp h with rfl | h'
        · exact Or.inr (Or.inl rfl)
        · rw [← htl] at h'
          rcases pairsOf_merge p idx (b :: rest) q h' with h'' | h'' | h''
          · exact Or.inl h''
          · exact Or.inr (Or.inl h'')
          · exact Or.inr (Or.inr (pairsOf_cons_subset a _ q h''))
      · rw [htl] at h
        simp only [pairsOf] at h
        rcases List.mem_cons.mp h with rfl | h'
        · exact Or.inr (Or.inr (by simp [pairsOf]))
        · rw [← htl] at h'
          rcases pairsOf_merge p idx (b :: rest) q h' with h'' | h'' | h''
          · exact Or.inl h''
          · exact Or.inr (Or.inl h'')
          · exact Or.inr (Or.inr (pairsOf_cons_subset a _ q h''))

/-- Non-overlap: after merging, the merged pair itself is no longer adjacent
anywhere (as long as the new id differs from its components). -/
lemma not_mem_pairsOf_merge (p : Pair) (idx : Int) (h1 : p.first ≠ idx)
    (h2 : p.second ≠ idx) : ∀ (l : List Int), p ∉ pairsOf (merge l p idx)
  | [] => by simp [merge, pairsOf]
  | [a] => by simp [merge, pairsOf]
  | a :: b :: rest => by
    by_cases hm : a = p.first ∧ b = p.second
    · simp only [merge, if_pos hm]
      intro h
      cases hmr : merge rest p idx with
      | nil => rw [hmr] at h; simp [pairsOf] at h
      | cons m tl =>
        rw [hmr] at h
        simp only [pairsOf] at h
        rcases List.mem_cons.mp h with he | h'
        · exact h1 (congrArg Pair.first he)
        · rw [← hmr] at h'
          exact not_mem_pairsOf_merge p idx h1 h2 rest h'
    · simp only [merge, if_neg hm]
      intro h
      rcases merge_cons_shape p idx b rest with ⟨tl, htl⟩ | ⟨tl, htl⟩
      · rw [htl] at h
        simp only [pairsOf] at h
        rcases List.mem_cons.mp h with he | h'
        · exact h2 (congrArg Pair.second he)
        · rw [← htl] at h'
          exact not_mem_pairsOf_merge p idx h1 h2 (b :: rest) h'
      · rw [htl] at h
        simp only [pairsOf] at h
        rcases List.mem_cons.mp h with he | h'
        · exact hm ⟨by rw [he], by rw [he]⟩
        · rw [← htl] at h'
          exact not_mem_pairsOf_merge p idx h1 h2 (b :: rest) h'

lemma add_pair_count_not_mem (acc : PairCounts) (p : Pair) (c : Int)
    (h : p ∉ acc.map Prod.fst) : add_pair_count acc p c = acc ++ [(p, c)] := by
  induction acc with
  | nil => rfl
  | cons e rest ih =>
    obtain ⟨q, n⟩ := e
    simp only [List.map_cons, List.mem_cons] at h
    push_neg at h
    have hqp : ¬q = p := fun hq => h.1 hq.symm
    simp only [add_pair_count, if_neg hqp, List.cons_append]
    rw [ih h.2]

lemma pick_mem (e : Pair × Int) (rest : PairCounts) : pick e rest ∈ e :: rest := by
  obtain ⟨l₁, l₂, heq, -, -⟩ := pick_first_max rest e
  rw [heq]
  exact List.mem_append.mpr (Or.inr (List.mem_cons_self _ _))

lemma mem_firstOccur (l : List Pair) (x : Pair) (h : x ∈ firstOccur l) :
    x ∈ l := by
  rcases mem_firstOccur_foldl l [] x h with h' | h'
  · cases h'
  · exact h'

/-- The pair selected at a training iteration is adjacent somewhere in the
current sequence. -/
lemma pick_fst_mem_pairsOf (ids : List Int) (e : Pair × Int)
    (rest : PairCounts) (h : get_stats ids = e :: rest) :
    (pick e rest).1 ∈ pairsOf ids := by
  have hm : (pick e rest).1 ∈ (get_stats ids).map Prod.fst := by
    rw [h]
    exact List.mem_map_of_mem Prod.fst (pick_mem e rest)
  rw [get_stats_map_fst] at hm
  exact mem_firstOccur _ _ hm

/-- Invariant of the training loop: no already-merged pair is ever adjacent
again, every sequence element is below the next free id, and the merge table
grows by exactly one entry per iteration whose stored id is `500 + rank`. -/
lemma trainGo_rank_ids : ∀ (fuel i : Nat) (ids : List Int)
    (t tok : BasicTokenizer),
    (∀ x ∈ ids, x < 500 + (i : Int)) →
    (∀ e ∈ t.merges, e.1 ∉ pairsOf ids ∧
      e.1.first < 500 + (i : Int) ∧ e.1.second < 500 + (i : Int)) →
    t.merges.map Prod.snd = (List.range i).map (fun k : Nat => (500 : Int) + k) →
    trainGo fuel i ids t = some tok →
    tok.merges.map Prod.snd =
      (List.range (i + fuel)).map (fun k : Nat => (500 : Int) + k) := by
  intro fuel
  induction fuel with
  | zero =>
    intro i ids t tok hids hm hranks h
    simp only [trainGo, Option.some.injEq] at h
    subst h
    simpa using hranks
  | succ fuel ih =>
    intro i ids t tok hids hm hranks h
    cases hstats : get_stats ids with
    | nil =>
      simp only [trainGo, hstats] at h
      exact Option.noConfusion h
    | cons e rest =>
      simp only [trainGo, hstats] at h
      have h500 : ((INITIAL_VOCAB_SIZE : Nat) : Int) = 500 := rfl
      have hPmem : (pick e rest).1 ∈ pairsOf ids :=
        pick_fst_mem_pairsOf ids e rest hstats
      have hPfirst : (pick e rest).1.first < 500 + (i : Int) :=
        hids _ (mem_pairsOf ids _ hPmem).1
      have hPsecond : (pick e rest).1.second < 500 + (i : Int) :=
        hids _ (mem_pairsOf ids _ hPmem).2
      have hnotkey : (pick e rest).1 ∉ t.merges.map Prod.fst := by
        intro hk
        obtain ⟨e', he', hfst⟩ := List.mem_map.mp hk
        exact (hm e' he').1 (hfst ▸ hPmem)
      have hadd : add_pair_count t.merges (pick e rest).1
          ((INITIAL_VOCAB_SIZE : Int) + i) =
          t.merges ++ [((pick e rest).1, (INITIAL_VOCAB_SIZE : Int) + i)] :=
        add_pair_count_not_mem _ _ _ hnotkey
      rw [hadd] at h
      have hids' : ∀ x ∈ merge ids (pick e rest).1 ((INITIAL_VOCAB_SIZE : Int) + i),
          x < 500 + ((i + 1 : Nat) : Int) := by
        intro x hx
        rcases mem_merge _ _ ids x hx with rfl | hx'
        · rw [h500]
          push_cast
          omega
        · have := hids x hx'
          push_cast
          push_cast at this
          omega
      have hm' : ∀ e' ∈ t.merges ++ [((pick e rest).1, (INITIAL_VOCAB_SIZE : Int) + i)],
          e'.1 ∉ pairsOf (merge ids (pick e rest).1 ((INITIAL_VOCAB_SIZE : Int) + i)) ∧
          e'.1.first < 500 + ((i + 1 : Nat) : Int) ∧
          e'.1.second < 500 + ((i + 1 : Nat) : Int) := by
        intro e' he'
        rcases List.mem_append.mp he' with he' | he'
        · obtain ⟨hnp, hf, hs⟩ := hm e' he'
          refine ⟨?_, by push_cast; omega, by push_cast; omega⟩
          intro hq
          rcases pairsOf_merge _ _ ids e'.1 hq with h'' | h'' | h''
          · rw [h500] at h''
            omega
          · rw [h500] at h''
            omega
          · exact hnp h''
        · rw [List.mem_singleton] at he'
          subst he'
          refine ⟨?_, by simp only [h500]; push_cast; omega,
            by simp only [h500]; push_cast; omega⟩
          apply not_mem_pairsOf_merge
          · rw [h500]; omega
          · rw [h500]; omega
      have hranks' : (t.merges ++
          [((pick e rest).1, (INITIAL_VOCAB_SIZE : Int) + i)]).map Prod.snd =
          (List.range (i + 1)).map (fun k : Nat => (500 : Int) + k) := by
        rw [List.map_append, hranks, List.range_succ, List.map_append]
        simp [h500]
      have hconc := ih (i + 1) _ _ tok hids' hm' hranks' h
      rw [show i + 1 + fuel = i + (fuel + 1) by omega] at hconc
      exact hconc

/-- C2 as stated is false on the code: with `target_vocab_size = 257` the
training loop runs `257 - 500 < 0`, hence zero, iterations — not the
`257 - 256 = 1` iterations the claim requires — and no rule with id 256 is
ever produced. -/
theorem train_iteration_count_not_256_based :
    train create_basic_tokenizer [97, 97, 97, 97] 257 =
      some create_basic_tokenizer ∧
    create_basic_tokenizer.merges.length = 0 ∧
    ((257 : Int) - 256) ≠ 0 :=
  ⟨rfl, rfl, by decide⟩

/-- C2 amended: the new id of the rule of rank `k` is `500 + k` (the code's
`INITIAL_VOCAB_SIZE` is 500, not 256), the number of merge iterations
attempted is `target_vocab_size - 500`, and `target_vocab_size ≤ 500` yields
zero iterations rather than an error. -/
theorem train_rule_ids_start_at_500 (text : List Nat) (V : Int)
    (htext : ∀ b ∈ text, b < 256) :
    (∀ tok, train create_basic_tokenizer text V = some tok →
      tok.merges.length = (V - 500).toNat ∧
      tok.merges.map Prod.snd =
        (List.range tok.merges.length).map (fun k : Nat => (500 : Int) + k)) ∧
    (V ≤ 500 → train create_basic_tokenizer text V = some create_basic_tokenizer) := by
  constructor
  · intro tok h
    have h0 : ∀ x ∈ text.map Int.ofNat, x < 500 + ((0 : Nat) : Int) := by
      intro x hx
      obtain ⟨b, hb, rfl⟩ := List.mem_map.mp hx
      have hble := htext b hb
      rw [show Int.ofNat b = (b : Int) from rfl]
      push_cast
      omega
    have hsnd := trainGo_rank_ids ((V - 500).toNat) 0 (text.map Int.ofNat)
      create_basic_tokenizer tok h0 (by intro e he; cases he) (by rfl) h
    rw [Nat.zero_add] at hsnd
    have hlen : tok.merges.length = (V - 500).toNat := by
      have := congrArg List.length hsnd
      simpa using this
    exact ⟨hlen, by rw [hlen]; exact hsnd⟩
  · intro hV
    have hz : (V - ((INITIAL_VOCAB_SIZE : Nat) : Int)).toNat = 0 := by
      rw [show ((INITIAL_VOCAB_SIZE : Nat) : Int) = 500 from rfl]
      omega
    unfold train
    rw [hz]
    rfl

/-- Witness for the amended C2 at `target_vocab_size = 400 ≤ 500`: zero
iterations, no error, and `(400 - 500).toNat = 0` learned rules. -/
theorem train_rule_ids_start_at_500_witness :
    train create_basic_tokenizer [97, 97] 400 = some create_basic_tokenizer ∧
    create_basic_tokenizer.merges.length = ((400 : Int) - 500).toNat := by
  have h := train_rule_ids_start_at_500 [97, 97] 400 (by decide)
  have h2 := h.2 (by norm_num)
  exact ⟨h2, (h.1 create_basic_tokenizer h2).1⟩

end MinBpe
